import Mathlib

/-!
Verification development for the shader-based Gaussian blur core
(`src/src/core/SkBlurEngine.cpp`).

The kernel mathematics (`Compute2DBlurKernel`, `Compute1DBlurLinearKernel`)
is embedded over the real numbers: the C++ code computes with 32-bit
floats, and every claim about weights is stated "within floating point
tolerance"; in the real-arithmetic model the corresponding identities are
exact.  Buffers are embedded as total functions from the flat index, with
the same zero-fill / repeat-last padding policy as the code.  Control flow
of the top-level `blur` entry point is embedded as a pure planner that
records the render passes it issues, with surface allocation abstracted by
a success oracle (the device is an external collaborator).

Declarations that embed code living in `SkBlurEngine.h` (which is not part
of src/) are marked `Modelled from the spec:` in their doc comments.
-/

namespace SkBlur

/-- Modelled from the spec: `SkShaderBlurAlgorithm::kMaxSamples`, the
fixed uniform-buffer sample budget, is declared in SkBlurEngine.h which is
not in src/.  Its value 28 is fixed by the `to_stablekey` switch in
src/src/core/SkBlurEngine.cpp (widths up to 28 are supported, larger is
unreachable) and by the spec's bucket table (widths 21-28 share the last
key). -/
def kMaxSamples : ℕ := 28

/-- Modelled from the spec: `SkShaderBlurAlgorithm::kMaxLinearSigma`, the
linear-path sigma ceiling asserted at the top of `blur`, is declared in
SkBlurEngine.h which is not in src/.  The spec fixes only that it is a
fixed positive ceiling the caller must respect; no claim depends on its
numeric value, which we take to be 9. -/
def kMaxLinearSigma : ℚ := 9

/-- Modelled from the spec: `SkShaderBlurAlgorithm::KernelWidth` is
declared in SkBlurEngine.h which is not in src/.  Per the spec (section 3)
a full kernel for radius r is the grid of size 2r+1 per axis. -/
def KernelWidth (radius : ℕ) : ℕ := 2 * radius + 1

/-- Modelled from the spec: `SkShaderBlurAlgorithm::LinearKernelWidth` is
declared in SkBlurEngine.h which is not in src/.  Per the spec (section 3)
the linear-sampling encoding has radius + 1 taps. -/
def LinearKernelWidth (radius : ℕ) : ℕ := radius + 1

/-- Modelled from the spec: `SkBlurEngine::SigmaToRadius` is declared in
SkBlurEngine.h which is not in src/.  The spec (section 3) fixes only that
the radius is a non-negative integer derived deterministically from sigma,
with sigma 0 (an identity blur) giving radius 0; no claim depends on the
exact formula, for which we use the conventional three-sigma support. -/
def SigmaToRadius (sigma : ℚ) : ℕ := (⌊3 * sigma⌋).toNat

/-- The bucket (0-5) that a supported kernel width falls into, as a step
function; used to state the bucketing behaviour of `to_stablekey`. -/
def stableBucket (w : ℕ) : ℕ :=
  if w ≤ 4 then 0
  else if w ≤ 8 then 1
  else if w ≤ 12 then 2
  else if w ≤ 16 then 3
  else if w ≤ 20 then 4
  else 5

/-- The `to_stablekey` switch (src/src/core/SkBlurEngine.cpp lines
203-238): maps a kernel width in [2, 28] to a stable-key value relative to
`baseKey`; widths outside the switch hit `SkUNREACHABLE`, modelled as
`none`. -/
def to_stablekey (kernelWidth : ℕ) (baseKey : ℕ) : Option ℕ :=
  match kernelWidth with
  | 2 | 3 | 4 => some baseKey
  | 5 | 6 | 7 | 8 => some (baseKey + 1)
  | 9 | 10 | 11 | 12 => some (baseKey + 2)
  | 13 | 14 | 15 | 16 => some (baseKey + 3)
  | 17 | 18 | 19 | 20 => some (baseKey + 4)
  | 21 | 22 | 23 | 24 | 25 | 26 | 27 | 28 => some (baseKey + 5)
  | _ => none

/-- The function `SkShaderBlurAlgorithm::Compute2DBlurOffsets` (src/src/core/SkBlurEngine.cpp
lines 94-115), as the pair of floats written at offset slot `i`: the
nested loops enumerate y in [-ry, ry] outer and x in [-rx, rx] inner, so
slot i holds (x, y) with x = i mod width - rx and y = i div width - ry;
slots at kernelArea and beyond repeat the last valid pair. -/
def Compute2DBlurOffsets (rx ry : ℕ) (i : ℕ) : ℤ × ℤ :=
  let w := KernelWidth rx
  let kernelArea := w * KernelWidth ry
  if i < kernelArea then
    ((i % w : ℕ) - (rx : ℤ), ((i / w : ℕ) : ℤ) - (ry : ℤ))
  else
    (((kernelArea - 1) % w : ℕ) - (rx : ℤ), (((kernelArea - 1) / w : ℕ) : ℤ) - (ry : ℤ))

/-- Modelled from the spec: integer pixel rectangles (`SkIRect`) and their
outset/offset/intersect operations come from include/core/SkRect.h which
is not in src/; the spec (sections 4.3 and the glossary) uses standard
left/top/right/bottom rectangle semantics, with outset enlarging
symmetrically and intersection failing when empty. -/
structure IRect where
  left : ℤ
  top : ℤ
  right : ℤ
  bottom : ℤ
deriving DecidableEq, Repr

namespace IRect

def width (r : IRect) : ℤ := r.right - r.left

def height (r : IRect) : ℤ := r.bottom - r.top

def isEmpty (r : IRect) : Bool := r.right ≤ r.left || r.bottom ≤ r.top

/-- Modelled from the spec: `SkIRect::makeOutset` enlarges symmetrically
by (dx, dy). -/
def makeOutset (r : IRect) (dx dy : ℤ) : IRect :=
  ⟨r.left - dx, r.top - dy, r.right + dx, r.bottom + dy⟩

/-- Modelled from the spec: `SkIRect::makeOffset` translates by (dx, dy). -/
def makeOffset (r : IRect) (dx dy : ℤ) : IRect :=
  ⟨r.left + dx, r.top + dy, r.right + dx, r.bottom + dy⟩

/-- Modelled from the spec: `SkIRect::intersect` replaces the rectangle by
the intersection and reports failure when the intersection is empty;
modelled as an `Option` result. -/
def intersect (a b : IRect) : Option IRect :=
  let c : IRect := ⟨max a.left b.left, max a.top b.top,
                    min a.right b.right, min a.bottom b.bottom⟩
  if c.isEmpty then none else some c

/-- Modelled from the spec: `SkIRect::MakeWH`. -/
def MakeWH (w h : ℤ) : IRect := ⟨0, 0, w, h⟩

end IRect

/-- The result image of a render pass, reduced to the data the planner
observes: its dimensions, plus a tag so that "the source is passed through
unchanged" is expressible (`snapSpecial` returns an image of the
destination rectangle's size). -/
structure SpecialImage where
  width : ℤ
  height : ℤ
  tag : ℕ
deriving DecidableEq, Repr

/-- One render pass issued by `SkShaderBlurAlgorithm::blur`: either a
single 2-D kernel evaluation (`evalBlur2D`) or a 1-D linear-kernel
evaluation along direction (dirX, dirY) (`evalBlur1D`), each with the
source and destination rectangles bound to the shader. -/
inductive BlurPass where
  | pass2D (radiusX radiusY : ℕ) (srcRect dstRect : IRect)
  | pass1D (sigma : ℚ) (radius : ℕ) (dirX dirY : ℚ) (srcRect dstRect : IRect)
deriving DecidableEq, Repr

/-- The method `SkShaderBlurAlgorithm::renderBlur` (src/src/core/SkBlurEngine.cpp
lines 253-273): allocates a device for an image of `dstRect`'s size and
returns the snapped image, or `none` when `makeDevice` fails.  The device
is an external collaborator; allocation success is abstracted by the
boolean `alloc`.  The snapped image has the destination rectangle's
dimensions (`subset = SkIRect::MakeSize(dstRect.size())`). -/
def renderBlur (alloc : Bool) (dstRect : IRect) : Option SpecialImage :=
  if alloc then some ⟨dstRect.width, dstRect.height, 0⟩ else none

/-- The entry point `SkShaderBlurAlgorithm::blur` (src/src/core/SkBlurEngine.cpp lines
322-380), as a planner: returns the list of render passes issued (in
order) and the final result.  `alloc i` tells whether the i-th
`makeDevice` call of this request succeeds.  Strategy: a single 2-D pass
when the kernel area fits the sample budget and both radii are nonzero;
otherwise two separable 1-D passes, the X pass skipped when radiusX is 0
and the Y pass skipped when radiusY is 0, with the X pass's destination
outset by radiusY and clipped to the source outset by both radii when a Y
pass will follow.  An empty intersection or a failed allocation yields no
result. -/
def blur (alloc : ℕ → Bool) (sigmaW sigmaH : ℚ) (src : SpecialImage)
    (srcRect dstRect : IRect) : List BlurPass × Option SpecialImage :=
  let radiusX := SigmaToRadius sigmaW
  let radiusY := SigmaToRadius sigmaH
  let kernelArea := KernelWidth radiusX * KernelWidth radiusY
  if kernelArea ≤ kMaxSamples ∧ 0 < radiusX ∧ 0 < radiusY then
    ([BlurPass.pass2D radiusX radiusY srcRect dstRect], renderBlur (alloc 0) dstRect)
  else if 0 < radiusX then
    match (if 0 < radiusY then
            IRect.intersect (dstRect.makeOutset 0 (radiusY : ℤ))
                            (srcRect.makeOutset (radiusX : ℤ) (radiusY : ℤ))
          else some dstRect) with
    | none => ([], none)
    | some interDst =>
      match renderBlur (alloc 0) interDst with
      | none => ([BlurPass.pass1D sigmaW radiusX 1 0 srcRect interDst], none)
      | some img1 =>
        if 0 < radiusY then
          let interSrc := IRect.MakeWH img1.width img1.height
          let dst2 := dstRect.makeOffset (-interDst.left) (-interDst.top)
          ([BlurPass.pass1D sigmaW radiusX 1 0 srcRect interDst,
            BlurPass.pass1D sigmaH radiusY 0 1 interSrc dst2],
            renderBlur (alloc 1) dst2)
        else ([BlurPass.pass1D sigmaW radiusX 1 0 srcRect interDst], some img1)
  else if 0 < radiusY then
    ([BlurPass.pass1D sigmaH radiusY 0 1 srcRect dstRect], renderBlur (alloc 0) dstRect)
  else ([], some src)

/-- The entry point `SkShaderBlurAlgorithm::blur` including the `SkASSERT` on its first
line (src/src/core/SkBlurEngine.cpp line 327): the assertion that both
sigmas are at most `kMaxLinearSigma` is checked unconditionally before any
strategy is chosen; a violated assertion is modelled as the outer `none`. -/
def blurChecked (alloc : ℕ → Bool) (sigmaW sigmaH : ℚ) (src : SpecialImage)
    (srcRect dstRect : IRect) : Option (List BlurPass × Option SpecialImage) :=
  if sigmaW ≤ kMaxLinearSigma ∧ sigmaH ≤ kMaxLinearSigma then
    some (blur alloc sigmaW sigmaH src srcRect dstRect)
  else none

/-- The unnormalised Gaussian term evaluated by `Compute2DBlurKernel` at
grid cell (x, y) (src/src/core/SkBlurEngine.cpp lines 53-74): the term is
exp(-((x - rx)^2 * sigmaXDenom + (y - ry)^2 * sigmaYDenom)) where each
denominator is 1 / (2 sigma^2), forced to 1 on a zero-radius axis so the
degenerate axis collapses to the 1-D Gaussian. -/
noncomputable def gaussTerm2D (sigmaX sigmaY : ℚ) (rx ry : ℕ) (x y : ℕ) : ℝ :=
  Real.exp (-(((x : ℝ) - (rx : ℝ)) ^ 2 *
                (if 0 < rx then 1 / (2 * (sigmaX : ℝ) * (sigmaX : ℝ)) else 1)
              + ((y : ℝ) - (ry : ℝ)) ^ 2 *
                (if 0 < ry then 1 / (2 * (sigmaY : ℝ) * (sigmaY : ℝ)) else 1)))

/-- The accumulated sum of all width*height Gaussian terms computed by the
loops of `Compute2DBlurKernel` (src/src/core/SkBlurEngine.cpp lines
63-75), indexed by the flat buffer position i = y * width + x. -/
noncomputable def kernel2DSum (sigmaX sigmaY : ℚ) (rx ry : ℕ) : ℝ :=
  ∑ i ∈ Finset.range (KernelWidth rx * KernelWidth ry),
    gaussTerm2D sigmaX sigmaY rx ry (i % KernelWidth rx) (i / KernelWidth rx)

/-- The function `SkShaderBlurAlgorithm::Compute2DBlurKernel` (src/src/core/SkBlurEngine.cpp
lines 36-83), as the value left in the kernel buffer at flat index i
(buffer layout kernel[y * width + x]): each in-range Gaussian term divided
by the accumulated sum (the normalisation pass multiplies by
scale = 1 / sum), with the remainder of the buffer zeroed. -/
noncomputable def Compute2DBlurKernel (sigmaX sigmaY : ℚ) (rx ry : ℕ) (i : ℕ) : ℝ :=
  if i < KernelWidth rx * KernelWidth ry then
    gaussTerm2D sigmaX sigmaY rx ry (i % KernelWidth rx) (i / KernelWidth rx)
      / kernel2DSum sigmaX sigmaY rx ry
  else 0

/-- Modelled from the spec: `SkShaderBlurAlgorithm::Compute1DBlurKernel`
is declared in SkBlurEngine.h which is not in src/; per the spec (section
4.1) the full 1-D kernel of width 2 radius + 1 is the scalar (degenerate
second axis) case of the 2-D kernel. -/
noncomputable def Compute1DBlurKernel (sigma : ℚ) (radius : ℕ) (i : ℕ) : ℝ :=
  Compute2DBlurKernel sigma 0 radius 0 i

/-- The value `halfSize / 2` used by `Compute1DBlurLinearKernel`
(src/src/core/SkBlurEngine.cpp line 147), where halfSize is
`LinearKernelWidth radius`: the output index of the centre tap. -/
def linHalfRadius (radius : ℕ) : ℕ := LinearKernelWidth radius / 2

/-- The full-kernel index fed to `get_new_weight` on iteration i of the
pair-merging loop of `Compute1DBlurLinearKernel`
(src/src/core/SkBlurEngine.cpp lines 153-187): `index` starts at the
radius, is advanced once or twice by the centre-tap handling (twice when
the radius is odd), and then advances by 2 per loop iteration starting at
i = halfRadius + 1. -/
def linPairIndex (radius i : ℕ) : ℕ :=
  (if radius % 2 = 1 then radius + 2 else radius + 1) + 2 * (i - linHalfRadius radius - 1)

/-- The merged weight written at output index i of the upper half
(halfRadius ≤ i < halfSize) by `Compute1DBlurLinearKernel`
(src/src/core/SkBlurEngine.cpp lines 153-187): at the centre, an odd
radius merges the halved centre texel with its upper neighbour via
`get_new_weight` while an even radius samples the centre texel directly;
past the centre each pair of full-kernel weights is merged. -/
noncomputable def linUpperWeight (sigma : ℚ) (radius i : ℕ) : ℝ :=
  if i = linHalfRadius radius then
    if radius % 2 = 1 then
      Compute1DBlurKernel sigma radius radius * (1 / 2)
        + Compute1DBlurKernel sigma radius (radius + 1)
    else
      Compute1DBlurKernel sigma radius radius
  else
    Compute1DBlurKernel sigma radius (linPairIndex radius i)
      + Compute1DBlurKernel sigma radius (linPairIndex radius i + 1)

/-- The sample offset written at output index i of the upper half by
`Compute1DBlurLinearKernel` (src/src/core/SkBlurEngine.cpp lines 153-187):
`get_new_weight` produces the fractional part Wj / (Wi + Wj), and the
pair-merging loop then adds the integer displacement index - radius; an
even radius samples the centre directly at offset 0. -/
noncomputable def linUpperOffset (sigma : ℚ) (radius i : ℕ) : ℝ :=
  if i = linHalfRadius radius then
    if radius % 2 = 1 then
      Compute1DBlurKernel sigma radius (radius + 1)
        / (Compute1DBlurKernel sigma radius radius * (1 / 2)
            + Compute1DBlurKernel sigma radius (radius + 1))
    else 0
  else
    Compute1DBlurKernel sigma radius (linPairIndex radius i + 1)
        / (Compute1DBlurKernel sigma radius (linPairIndex radius i)
            + Compute1DBlurKernel sigma radius (linPairIndex radius i + 1))
      + ((linPairIndex radius i : ℝ) - (radius : ℝ))

/-- The weight array of `Compute1DBlurLinearKernel`
(src/src/core/SkBlurEngine.cpp lines 143-195): the upper half is computed
directly, the lower half mirrors it (output index i < halfRadius mirrors
index halfSize - 1 - i = radius - i with equal weight), and the tail from
halfSize to kMaxSamples is zeroed. -/
noncomputable def linKernel (sigma : ℚ) (radius i : ℕ) : ℝ :=
  if i < LinearKernelWidth radius then
    linUpperWeight sigma radius (if i < linHalfRadius radius then radius - i else i)
  else 0

/-- The offset array of `Compute1DBlurLinearKernel`
(src/src/core/SkBlurEngine.cpp lines 143-195): the lower half mirrors the
upper half with negated offsets, and the tail from halfSize to kMaxSamples
repeats the last valid offset offsets[halfSize - 1] = offsets[radius]. -/
noncomputable def linOffsets (sigma : ℚ) (radius i : ℕ) : ℝ :=
  if i < LinearKernelWidth radius then
    if i < linHalfRadius radius then -(linUpperOffset sigma radius (radius - i))
    else linUpperOffset sigma radius i
  else linUpperOffset sigma radius radius

/-- The function `SkShaderBlurAlgorithm::Compute1DBlurLinearKernel`
(src/src/core/SkBlurEngine.cpp lines 117-201): the (offset, weight) pair
stored for tap i (the output array interleaves offsets and kernel values
pairwise into SkV4s, offset before weight). -/
noncomputable def Compute1DBlurLinearKernel (sigma : ℚ) (radius i : ℕ) : ℝ × ℝ :=
  (linOffsets sigma radius i, linKernel sigma radius i)

/-- The expansion of linear tap i back into full-kernel texel t: the GPU
samples the child at position radius + offset, and a bilinear fetch at
fractional position splits the tap's weight W into W * (1 - x) on the
lower texel and W * x on the upper texel, x being the fractional part --
the inverse of the `get_new_weight` merge (Wi = W' * (1 - x),
Wj = W' * x). -/
noncomputable def linTapExpand (sigma : ℚ) (radius i t : ℕ) : ℝ :=
  linKernel sigma radius i *
    ((1 - Int.fract ((radius : ℝ) + linOffsets sigma radius i)) *
        (if ⌊(radius : ℝ) + linOffsets sigma radius i⌋ = (t : ℤ) then 1 else 0)
      + Int.fract ((radius : ℝ) + linOffsets sigma radius i) *
        (if ⌊(radius : ℝ) + linOffsets sigma radius i⌋ + 1 = (t : ℤ) then 1 else 0))

/-- The full kernel reconstructed from the linear taps: the sum over all
radius + 1 taps of their bilinear expansions at texel t. -/
noncomputable def reconKernel (sigma : ℚ) (radius t : ℕ) : ℝ :=
  ∑ i ∈ Finset.range (LinearKernelWidth radius), linTapExpand sigma radius i t

theorem kernelWidth_pos (r : ℕ) : 0 < KernelWidth r := by
  unfold KernelWidth; omega

theorem gaussTerm2D_pos (sigmaX sigmaY : ℚ) (rx ry x y : ℕ) :
    0 < gaussTerm2D sigmaX sigmaY rx ry x y := by
  unfold gaussTerm2D; exact Real.exp_pos _

theorem kernel2DSum_pos (sigmaX sigmaY : ℚ) (rx ry : ℕ) :
    0 < kernel2DSum sigmaX sigmaY rx ry := by
  unfold kernel2DSum
  apply Finset.sum_pos
  · intro i _; exact gaussTerm2D_pos sigmaX sigmaY rx ry _ _
  · rw [Finset.nonempty_range_iff]
    exact Nat.mul_ne_zero (by unfold KernelWidth; omega) (by unfold KernelWidth; omega)

theorem Compute2DBlurKernel_pos (sigmaX sigmaY : ℚ) (rx ry : ℕ) (i : ℕ)
    (hi : i < KernelWidth rx * KernelWidth ry) :
    0 < Compute2DBlurKernel sigmaX sigmaY rx ry i := by
  unfold Compute2DBlurKernel
  rw [if_pos hi]
  exact div_pos (gaussTerm2D_pos _ _ _ _ _ _) (kernel2DSum_pos _ _ _ _)

theorem Compute2DBlurKernel_zero (sigmaX sigmaY : ℚ) (rx ry : ℕ) (i : ℕ)
    (hi : KernelWidth rx * KernelWidth ry ≤ i) :
    Compute2DBlurKernel sigmaX sigmaY rx ry i = 0 := by
  unfold Compute2DBlurKernel
  rw [if_neg (by omega)]

theorem Compute2DBlurKernel_sum (sigmaX sigmaY : ℚ) (rx ry : ℕ) :
    (∑ i ∈ Finset.range (KernelWidth rx * KernelWidth ry),
        Compute2DBlurKernel sigmaX sigmaY rx ry i) = 1 := by
  have h : (∑ i ∈ Finset.range (KernelWidth rx * KernelWidth ry),
      Compute2DBlurKernel sigmaX sigmaY rx ry i) =
      (∑ i ∈ Finset.range (KernelWidth rx * KernelWidth ry),
        gaussTerm2D sigmaX sigmaY rx ry (i % KernelWidth rx) (i / KernelWidth rx))
        / kernel2DSum sigmaX sigmaY rx ry := by
    rw [Finset.sum_div]
    apply Finset.sum_congr rfl
    intro i hi
    rw [Finset.mem_range] at hi
    unfold Compute2DBlurKernel
    rw [if_pos hi]
  rw [h]
  exact div_self (ne_of_gt (kernel2DSum_pos sigmaX sigmaY rx ry))

theorem Compute2DBlurKernel_degenerate (sigmaX sigmaY : ℚ) :
    Compute2DBlurKernel sigmaX sigmaY 0 0 0 = 1 := by
  have hsum : kernel2DSum sigmaX sigmaY 0 0 = gaussTerm2D sigmaX sigmaY 0 0 0 0 := by
    unfold kernel2DSum
    have hw : KernelWidth 0 * KernelWidth 0 = 1 := by unfold KernelWidth; omega
    rw [hw]
    simp
  have hg : gaussTerm2D sigmaX sigmaY 0 0 0 0 = 1 := by
    unfold gaussTerm2D
    norm_num
  unfold Compute2DBlurKernel
  rw [if_pos (by unfold KernelWidth; omega)]
  simp only [Nat.zero_mod, Nat.zero_div, hsum, hg, div_one]

/-- C1: for every (sigma, radius) pair satisfying the radius invariant,
the 2-D kernel weights are strictly positive on the valid
(2 radiusX + 1) x (2 radiusY + 1) grid and sum to 1 (exactly, in the
real-arithmetic model of the float computation); the degenerate
radius (0,0) case produces the single weight 1; and every buffer entry
past the valid grid is zero. -/
theorem C1_compute2DBlurKernel_normalized (sigmaX sigmaY : ℚ) (rx ry : ℕ)
    (hrx : rx = SigmaToRadius sigmaX) (hry : ry = SigmaToRadius sigmaY) :
    (∀ x < KernelWidth rx, ∀ y < KernelWidth ry,
        0 < Compute2DBlurKernel sigmaX sigmaY rx ry (y * KernelWidth rx + x)) ∧
    (∑ i ∈ Finset.range (KernelWidth rx * KernelWidth ry),
        Compute2DBlurKernel sigmaX sigmaY rx ry i) = 1 ∧
    (rx = 0 → ry = 0 → Compute2DBlurKernel sigmaX sigmaY rx ry 0 = 1) ∧
    (∀ i, KernelWidth rx * KernelWidth ry ≤ i →
        Compute2DBlurKernel sigmaX sigmaY rx ry i = 0) := by
  refine ⟨?_, Compute2DBlurKernel_sum sigmaX sigmaY rx ry, ?_, ?_⟩
  · intro x hx y hy
    apply Compute2DBlurKernel_pos
    calc y * KernelWidth rx + x < y * KernelWidth rx + KernelWidth rx := by omega
    _ = (y + 1) * KernelWidth rx := by ring
    _ ≤ KernelWidth ry * KernelWidth rx := Nat.mul_le_mul_right _ (by omega)
    _ = KernelWidth rx * KernelWidth ry := Nat.mul_comm _ _
  · intro h0x h0y
    subst h0x h0y
    exact Compute2DBlurKernel_degenerate sigmaX sigmaY
  · exact fun i hi => Compute2DBlurKernel_zero sigmaX sigmaY rx ry i hi

/-- Witness for C1 at sigma = (2, 0), radius = (6, 0): the radius
invariant holds and the kernel is normalised. -/
theorem C1_compute2DBlurKernel_normalized_witness :
    ((6 : ℕ) = SigmaToRadius 2 ∧ (0 : ℕ) = SigmaToRadius 0) ∧
    ((∀ x < KernelWidth 6, ∀ y < KernelWidth 0,
        0 < Compute2DBlurKernel 2 0 6 0 (y * KernelWidth 6 + x)) ∧
      (∑ i ∈ Finset.range (KernelWidth 6 * KernelWidth 0),
          Compute2DBlurKernel 2 0 6 0 i) = 1 ∧
      ((6 : ℕ) = 0 → (0 : ℕ) = 0 → Compute2DBlurKernel 2 0 6 0 0 = 1) ∧
      (∀ i, KernelWidth 6 * KernelWidth 0 ≤ i → Compute2DBlurKernel 2 0 6 0 i = 0)) :=
  ⟨⟨by norm_num [SigmaToRadius]; decide, by norm_num [SigmaToRadius]⟩,
    C1_compute2DBlurKernel_normalized 2 0 6 0 (by norm_num [SigmaToRadius]; decide)
      (by norm_num [SigmaToRadius])⟩

theorem to_stablekey_eq_bucket (b : ℕ) :
    ∀ w, 2 ≤ w → w ≤ kMaxSamples → to_stablekey w b = some (b + stableBucket w) := by
  intro w h1 h2
  unfold kMaxSamples at h2
  interval_cases w <;> simp [to_stablekey, stableBucket]

theorem stableBucket_mono {w1 w2 : ℕ} (h : w1 ≤ w2) : stableBucket w1 ≤ stableBucket w2 := by
  unfold stableBucket
  split_ifs <;> omega

/-- C6: the variant selector `to_stablekey` is total on supported widths
[2, 28], each width mapping to exactly one key, the keys are non-
decreasing in the width, and the buckets are exactly widths 2-4, 5-8,
9-12, 13-16, 17-20 and 21-28, mapped to baseKey through baseKey + 5. -/
theorem C6_to_stablekey_buckets (b : ℕ) :
    (∀ w, 2 ≤ w → w ≤ kMaxSamples → to_stablekey w b = some (b + stableBucket w)) ∧
    (∀ w1 w2 k1 k2, 2 ≤ w1 → w1 ≤ w2 → w2 ≤ kMaxSamples →
      to_stablekey w1 b = some k1 → to_stablekey w2 b = some k2 → k1 ≤ k2) ∧
    (∀ w, 2 ≤ w → w ≤ 4 → to_stablekey w b = some b) ∧
    (∀ w, 5 ≤ w → w ≤ 8 → to_stablekey w b = some (b + 1)) ∧
    (∀ w, 9 ≤ w → w ≤ 12 → to_stablekey w b = some (b + 2)) ∧
    (∀ w, 13 ≤ w → w ≤ 16 → to_stablekey w b = some (b + 3)) ∧
    (∀ w, 17 ≤ w → w ≤ 20 → to_stablekey w b = some (b + 4)) ∧
    (∀ w, 21 ≤ w → w ≤ 28 → to_stablekey w b = some (b + 5)) := by
  have hb := to_stablekey_eq_bucket b
  refine ⟨hb, ?_, ?_, ?_, ?_, ?_, ?_, ?_⟩
  · intro w1 w2 k1 k2 h1 h12 h2 e1 e2
    rw [hb w1 h1 (le_trans h12 h2)] at e1
    rw [hb w2 (le_trans h1 h12) h2] at e2
    have hk1 : k1 = b + stableBucket w1 := (Option.some.injEq _ _).mp e1.symm
    have hk2 : k2 = b + stableBucket w2 := (Option.some.injEq _ _).mp e2.symm
    rw [hk1, hk2]
    exact Nat.add_le_add_left (stableBucket_mono h12) b
  all_goals
    intro w h1 h2
  · interval_cases w <;> simp [to_stablekey]
  · interval_cases w <;> simp [to_stablekey]
  · interval_cases w <;> simp [to_stablekey]
  · interval_cases w <;> simp [to_stablekey]
  · interval_cases w <;> simp [to_stablekey]
  · interval_cases w <;> simp [to_stablekey]

/-- Witness for C6 at baseKey 7, width 21: the bucket table holds. -/
theorem C6_to_stablekey_buckets_witness :
    (2 ≤ 21 ∧ 21 ≤ kMaxSamples) ∧ to_stablekey 21 7 = some (7 + stableBucket 21) :=
  ⟨⟨by decide, by decide⟩, (C6_to_stablekey_buckets 7).1 21 (by decide) (by decide)⟩

theorem flat_mod_div {w : ℕ} (hw : 0 < w) {a : ℕ} (b : ℕ) (ha : a < w) :
    (b * w + a) % w = a ∧ (b * w + a) / w = b := by
  constructor
  · rw [Nat.add_comm, Nat.add_mul_mod_self_right, Nat.mod_eq_of_lt ha]
  · rw [Nat.add_comm, Nat.add_mul_div_right _ _ hw, Nat.div_eq_of_lt ha]
    omega

/-- C8: for every radius pair whose kernel area fits the sample budget,
`Compute2DBlurOffsets` stores the integer pair (x, y) at the row-major
slot (y + ry) * width + (x + rx) -- y outer over [-ry, ry], x inner over
[-rx, rx] -- and every slot past the valid kernel area repeats the last
valid pair, which is (rx, ry). -/
theorem C8_compute2DBlurOffsets (rx ry : ℕ)
    (h : KernelWidth rx * KernelWidth ry ≤ kMaxSamples) :
    (∀ a < KernelWidth rx, ∀ b < KernelWidth ry,
        Compute2DBlurOffsets rx ry (b * KernelWidth rx + a)
          = ((a : ℤ) - (rx : ℤ), (b : ℤ) - (ry : ℤ))) ∧
    Compute2DBlurOffsets rx ry (KernelWidth rx * KernelWidth ry - 1)
      = ((rx : ℤ), (ry : ℤ)) ∧
    (∀ i, KernelWidth rx * KernelWidth ry ≤ i →
        Compute2DBlurOffsets rx ry i
          = Compute2DBlurOffsets rx ry (KernelWidth rx * KernelWidth ry - 1)) := by
  have hw : 0 < KernelWidth rx := kernelWidth_pos rx
  have harea : KernelWidth rx * KernelWidth ry
      = (2 * ry * KernelWidth rx + 2 * rx) + 1 := by
    unfold KernelWidth; ring
  refine ⟨?_, ?_, ?_⟩
  · intro a ha b hb
    have hbound : b * KernelWidth rx + a < KernelWidth rx * KernelWidth ry := by
      calc b * KernelWidth rx + a < b * KernelWidth rx + KernelWidth rx := by omega
      _ = (b + 1) * KernelWidth rx := by ring
      _ ≤ KernelWidth ry * KernelWidth rx := Nat.mul_le_mul_right _ (by omega)
      _ = KernelWidth rx * KernelWidth ry := Nat.mul_comm _ _
    simp only [Compute2DBlurOffsets]
    rw [if_pos hbound, (flat_mod_div hw b ha).1, (flat_mod_div hw b ha).2]
  · have hlast : KernelWidth rx * KernelWidth ry - 1 = 2 * ry * KernelWidth rx + 2 * rx := by
      omega
    have h2rx : 2 * rx < KernelWidth rx := by unfold KernelWidth; omega
    simp only [Compute2DBlurOffsets]
    rw [if_pos (by omega), hlast, (flat_mod_div hw (2 * ry) h2rx).1,
      (flat_mod_div hw (2 * ry) h2rx).2]
    simp only [Prod.mk.injEq]
    constructor <;> push_cast <;> ring
  · intro i hi
    simp only [Compute2DBlurOffsets]
    rw [if_neg (by omega), if_pos (by omega)]

/-- Witness for C8 at radius (1, 2) (kernel area 15 of the 28 budget). -/
theorem C8_compute2DBlurOffsets_witness :
    (KernelWidth 1 * KernelWidth 2 ≤ kMaxSamples) ∧
    Compute2DBlurOffsets 1 2 (KernelWidth 1 * KernelWidth 2 - 1) = ((1 : ℤ), (2 : ℤ)) :=
  ⟨by decide, (C8_compute2DBlurOffsets 1 2 (by decide)).2.1⟩

/-- C3: strategy selection of `blur` -- with both derived radii zero the
source is returned unchanged with no render pass; with the kernel area
within the sample budget and both radii nonzero exactly one 2-D pass is
issued; otherwise the separable 1-D passes run, the X pass skipped when
radiusX = 0 and the Y pass skipped when radiusY = 0 (all passes observed
under an always-succeeding allocator, the planner's abort on an empty
intermediate intersection being claim C9's concern). -/
theorem C3_blur_strategy (alloc : ℕ → Bool) (halloc : ∀ i, alloc i = true)
    (sigmaW sigmaH : ℚ) (src : SpecialImage) (srcRect dstRect : IRect)
    (rx ry : ℕ) (hrx : rx = SigmaToRadius sigmaW) (hry : ry = SigmaToRadius sigmaH) :
    (rx = 0 → ry = 0 →
      blur alloc sigmaW sigmaH src srcRect dstRect = ([], some src)) ∧
    (KernelWidth rx * KernelWidth ry ≤ kMaxSamples → 0 < rx → 0 < ry →
      (blur alloc sigmaW sigmaH src srcRect dstRect).1
        = [BlurPass.pass2D rx ry srcRect dstRect]) ∧
    (¬ (KernelWidth rx * KernelWidth ry ≤ kMaxSamples ∧ 0 < rx ∧ 0 < ry) →
      (0 < rx → ry = 0 →
        (blur alloc sigmaW sigmaH src srcRect dstRect).1
          = [BlurPass.pass1D sigmaW rx 1 0 srcRect dstRect]) ∧
      (rx = 0 → 0 < ry →
        (blur alloc sigmaW sigmaH src srcRect dstRect).1
          = [BlurPass.pass1D sigmaH ry 0 1 srcRect dstRect]) ∧
      (∀ interDst, 0 < rx → 0 < ry →
        IRect.intersect (dstRect.makeOutset 0 (ry : ℤ))
            (srcRect.makeOutset (rx : ℤ) (ry : ℤ)) = some interDst →
        (blur alloc sigmaW sigmaH src srcRect dstRect).1
          = [BlurPass.pass1D sigmaW rx 1 0 srcRect interDst,
             BlurPass.pass1D sigmaH ry 0 1
               (IRect.MakeWH interDst.width interDst.height)
               (dstRect.makeOffset (-interDst.left) (-interDst.top))])) := by
  subst hrx hry
  refine ⟨?_, ?_, ?_⟩
  · intro h0x h0y
    simp only [blur]
    rw [if_neg (fun hc => by omega), if_neg (by omega), if_neg (by omega)]
  · intro harea hx hy
    simp only [blur]
    rw [if_pos ⟨harea, hx, hy⟩]
  · intro hnot
    refine ⟨?_, ?_, ?_⟩
    · intro hx h0y
      simp only [blur]
      rw [if_neg hnot, if_pos hx, if_neg (by omega)]
      simp [renderBlur, halloc 0, if_neg (show ¬ 0 < SigmaToRadius sigmaH by omega)]
    · intro h0x hy
      simp only [blur]
      rw [if_neg hnot, if_neg (by omega), if_pos hy]
    · intro interDst hx hy hI
      simp only [blur]
      rw [if_neg hnot, if_pos hx, if_pos hy, hI]
      simp [renderBlur, halloc 0, if_pos hy]

/-- Witness for C3 (pass-through branch) at sigma = (0, 0). -/
theorem C3_blur_strategy_witness :
    blur (fun _ => true) 0 0 ⟨5, 5, 3⟩ ⟨0, 0, 4, 4⟩ ⟨0, 0, 4, 4⟩ = ([], some ⟨5, 5, 3⟩) :=
  (C3_blur_strategy (fun _ => true) (fun _ => rfl) 0 0 ⟨5, 5, 3⟩ ⟨0, 0, 4, 4⟩ ⟨0, 0, 4, 4⟩
    0 0 (by norm_num [SigmaToRadius]) (by norm_num [SigmaToRadius])).1 rfl rfl

/-- C4: rectangle propagation of the two-pass strategy -- the X pass's
destination is the requested destination outset by radiusY on the
perpendicular axis intersected with the source outset by both radii; the Y
pass reads the full first-pass output re-based to origin (0,0) and writes
the requested destination offset by the negation of the first rectangle's
origin. -/
theorem C4_blur_two_pass_rects (alloc : ℕ → Bool) (halloc : ∀ i, alloc i = true)
    (sigmaW sigmaH : ℚ) (src : SpecialImage) (srcRect dstRect : IRect)
    (rx ry : ℕ) (hrx : rx = SigmaToRadius sigmaW) (hry : ry = SigmaToRadius sigmaH)
    (hx : 0 < rx) (hy : 0 < ry)
    (hbig : ¬ KernelWidth rx * KernelWidth ry ≤ kMaxSamples)
    (interDst : IRect)
    (hI : IRect.intersect (dstRect.makeOutset 0 (ry : ℤ))
        (srcRect.makeOutset (rx : ℤ) (ry : ℤ)) = some interDst) :
    blur alloc sigmaW sigmaH src srcRect dstRect
      = ([BlurPass.pass1D sigmaW rx 1 0 srcRect interDst,
          BlurPass.pass1D sigmaH ry 0 1
            (IRect.MakeWH interDst.width interDst.height)
            (dstRect.makeOffset (-interDst.left) (-interDst.top))],
         renderBlur (alloc 1) (dstRect.makeOffset (-interDst.left) (-interDst.top))) := by
  subst hrx hry
  simp only [blur]
  rw [if_neg (fun hc => hbig hc.1), if_pos hx, if_pos hy, hI]
  simp [renderBlur, halloc 0, if_pos hy]

/-- Witness for C4 at sigma = (1, 1) (radius 3, kernel area 49 > 28). -/
theorem C4_blur_two_pass_rects_witness :
    blur (fun _ => true) 1 1 ⟨20, 20, 0⟩ ⟨0, 0, 10, 10⟩ ⟨0, 0, 10, 10⟩
      = ([BlurPass.pass1D 1 3 1 0 ⟨0, 0, 10, 10⟩ ⟨0, -3, 10, 13⟩,
          BlurPass.pass1D 1 3 0 1
            (IRect.MakeWH (IRect.width ⟨0, -3, 10, 13⟩) (IRect.height ⟨0, -3, 10, 13⟩))
            (IRect.makeOffset ⟨0, 0, 10, 10⟩ (-(0 : ℤ)) (-(-3 : ℤ)))],
         renderBlur true (IRect.makeOffset ⟨0, 0, 10, 10⟩ (-(0 : ℤ)) (-(-3 : ℤ)))) :=
  C4_blur_two_pass_rects (fun _ => true) (fun _ => rfl) 1 1 ⟨20, 20, 0⟩
    ⟨0, 0, 10, 10⟩ ⟨0, 0, 10, 10⟩ 3 3
    (by norm_num [SigmaToRadius]; decide) (by norm_num [SigmaToRadius]; decide)
    (by decide) (by decide) (by decide) ⟨0, -3, 10, 13⟩ (by decide)

/-- C9: recoverable failures return no result -- an empty intermediate
intersection in the two-pass plan aborts before any render call with a
null image, and a failed surface allocation in any render pass (first or
second) propagates as a null image. -/
theorem C9_blur_recoverable_failures (alloc : ℕ → Bool) (sigmaW sigmaH : ℚ)
    (src : SpecialImage) (srcRect dstRect : IRect)
    (rx ry : ℕ) (hrx : rx = SigmaToRadius sigmaW) (hry : ry = SigmaToRadius sigmaH) :
    (0 < rx → 0 < ry → ¬ KernelWidth rx * KernelWidth ry ≤ kMaxSamples →
      IRect.intersect (dstRect.makeOutset 0 (ry : ℤ))
          (srcRect.makeOutset (rx : ℤ) (ry : ℤ)) = none →
      blur alloc sigmaW sigmaH src srcRect dstRect = ([], none)) ∧
    ((0 < rx ∨ 0 < ry) → alloc 0 = false →
      (blur alloc sigmaW sigmaH src srcRect dstRect).2 = none) ∧
    (∀ interDst, 0 < rx → 0 < ry → ¬ KernelWidth rx * KernelWidth ry ≤ kMaxSamples →
      IRect.intersect (dstRect.makeOutset 0 (ry : ℤ))
          (srcRect.makeOutset (rx : ℤ) (ry : ℤ)) = some interDst →
      alloc 0 = true → alloc 1 = false →
      (blur alloc sigmaW sigmaH src srcRect dstRect).2 = none) := by
  subst hrx hry
  refine ⟨?_, ?_, ?_⟩
  · intro hx hy hbig hI
    simp only [blur]
    rw [if_neg (fun hc => hbig hc.1), if_pos hx, if_pos hy, hI]
  · intro hor halloc0
    simp only [blur]
    by_cases hc : KernelWidth (SigmaToRadius sigmaW) * KernelWidth (SigmaToRadius sigmaH)
        ≤ kMaxSamples ∧ 0 < SigmaToRadius sigmaW ∧ 0 < SigmaToRadius sigmaH
    · rw [if_pos hc]
      simp [renderBlur, halloc0]
    · rw [if_neg hc]
      by_cases hx : 0 < SigmaToRadius sigmaW
      · rw [if_pos hx]
        cases hm : (if 0 < SigmaToRadius sigmaH then
            IRect.intersect (dstRect.makeOutset 0 (SigmaToRadius sigmaH : ℤ))
              (srcRect.makeOutset (SigmaToRadius sigmaW : ℤ) (SigmaToRadius sigmaH : ℤ))
          else some dstRect) with
        | none => rfl
        | some interDst => simp [renderBlur, halloc0]
      · rw [if_neg hx]
        have hy : 0 < SigmaToRadius sigmaH := by omega
        rw [if_pos hy]
        simp [renderBlur, halloc0]
  · intro interDst hx hy hbig hI halloc0 halloc1
    simp only [blur]
    rw [if_neg (fun hc => hbig hc.1), if_pos hx, if_pos hy, hI]
    simp [renderBlur, halloc0, halloc1, if_pos hy]

/-- Witness for C9 (empty-intersection branch) at sigma = (1, 1) with a
degenerate destination far from the source. -/
theorem C9_blur_recoverable_failures_witness :
    blur (fun _ => true) 1 1 ⟨20, 20, 0⟩ ⟨0, 0, 4, 4⟩ ⟨100, 100, 100, 100⟩ = ([], none) :=
  (C9_blur_recoverable_failures (fun _ => true) 1 1 ⟨20, 20, 0⟩ ⟨0, 0, 4, 4⟩
      ⟨100, 100, 100, 100⟩ 3 3
      (by norm_num [SigmaToRadius]; decide) (by norm_num [SigmaToRadius]; decide)).1
    (by decide) (by decide) (by decide) (by decide)

/-- C10: the `SkASSERT` on entry to `blur` requires sigma at most
`kMaxLinearSigma` on both axes unconditionally: under that precondition
the assertion never fires and the blur proceeds, and a violating sigma
trips the assertion even when the single 2-D (non-linear) strategy would
be chosen. -/
theorem C10_blur_assert_sigma_ceiling (alloc : ℕ → Bool) (sigmaW sigmaH : ℚ)
    (src : SpecialImage) (srcRect dstRect : IRect) :
    (sigmaW ≤ kMaxLinearSigma → sigmaH ≤ kMaxLinearSigma →
      blurChecked alloc sigmaW sigmaH src srcRect dstRect
        = some (blur alloc sigmaW sigmaH src srcRect dstRect)) ∧
    (¬ (sigmaW ≤ kMaxLinearSigma ∧ sigmaH ≤ kMaxLinearSigma) →
      KernelWidth (SigmaToRadius sigmaW) * KernelWidth (SigmaToRadius sigmaH)
          ≤ kMaxSamples →
      0 < SigmaToRadius sigmaW → 0 < SigmaToRadius sigmaH →
      blurChecked alloc sigmaW sigmaH src srcRect dstRect = none) := by
  constructor
  · intro h1 h2
    unfold blurChecked
    rw [if_pos ⟨h1, h2⟩]
  · intro hnot _ _ _
    unfold blurChecked
    rw [if_neg hnot]

/-- Witness for C10 at sigma = (1, 1), below the ceiling. -/
theorem C10_blur_assert_sigma_ceiling_witness :
    blurChecked (fun _ => true) 1 1 ⟨5, 5, 3⟩ ⟨0, 0, 4, 4⟩ ⟨0, 0, 4, 4⟩
      = some (blur (fun _ => true) 1 1 ⟨5, 5, 3⟩ ⟨0, 0, 4, 4⟩ ⟨0, 0, 4, 4⟩) :=
  (C10_blur_assert_sigma_ceiling (fun _ => true) 1 1 ⟨5, 5, 3⟩ ⟨0, 0, 4, 4⟩
      ⟨0, 0, 4, 4⟩).1 (by norm_num [kMaxLinearSigma]) (by norm_num [kMaxLinearSigma])

theorem Compute1DBlurKernel_eq (sigma : ℚ) (r i : ℕ) (hi : i < KernelWidth r) :
    Compute1DBlurKernel sigma r i
      = gaussTerm2D sigma 0 r 0 i 0 / kernel2DSum sigma 0 r 0 := by
  unfold Compute1DBlurKernel Compute2DBlurKernel
  have h0 : KernelWidth 0 = 1 := rfl
  rw [h0, mul_one, if_pos hi, Nat.mod_eq_of_lt hi, Nat.div_eq_of_lt hi]

theorem Compute1DBlurKernel_pos (sigma : ℚ) (r i : ℕ) (hi : i < KernelWidth r) :
    0 < Compute1DBlurKernel sigma r i := by
  have h : i < KernelWidth r * KernelWidth 0 := by
    rw [show KernelWidth 0 = 1 from rfl, mul_one]; exact hi
  exact Compute2DBlurKernel_pos sigma 0 r 0 i h

theorem Compute1DBlurKernel_symm (sigma : ℚ) (r s : ℕ) (hs : s ≤ 2 * r) :
    Compute1DBlurKernel sigma r (2 * r - s) = Compute1DBlurKernel sigma r s := by
  have h1 : 2 * r - s < KernelWidth r := by unfold KernelWidth; omega
  have h2 : s < KernelWidth r := by unfold KernelWidth; omega
  rw [Compute1DBlurKernel_eq sigma r _ h1, Compute1DBlurKernel_eq sigma r _ h2]
  congr 1
  unfold gaussTerm2D
  congr 1
  push_cast [Nat.cast_sub hs]
  ring

theorem linHalfRadius_lt (r : ℕ) : linHalfRadius r < LinearKernelWidth r := by
  unfold linHalfRadius LinearKernelWidth; omega

theorem linPairIndex_eq (r i : ℕ) (h1 : linHalfRadius r < i) (h2 : i ≤ r) :
    linPairIndex r i = 2 * i - 1 := by
  unfold linPairIndex linHalfRadius LinearKernelWidth
  unfold linHalfRadius LinearKernelWidth at h1
  split_ifs <;> omega

theorem linKernel_upper (sigma : ℚ) (r i : ℕ) (h1 : linHalfRadius r < i) (h2 : i ≤ r) :
    linKernel sigma r i
      = Compute1DBlurKernel sigma r (2 * i - 1) + Compute1DBlurKernel sigma r (2 * i) := by
  unfold linKernel
  rw [if_pos (show i < LinearKernelWidth r by unfold LinearKernelWidth; omega),
    if_neg (by omega)]
  unfold linUpperWeight
  rw [if_neg (by omega), linPairIndex_eq r i h1 h2,
    show 2 * i - 1 + 1 = 2 * i by omega]

theorem linOffsets_upper (sigma : ℚ) (r i : ℕ) (h1 : linHalfRadius r < i) (h2 : i ≤ r) :
    linOffsets sigma r i
      = Compute1DBlurKernel sigma r (2 * i)
          / (Compute1DBlurKernel sigma r (2 * i - 1) + Compute1DBlurKernel sigma r (2 * i))
        + (((2 * i - 1 : ℕ) : ℝ) - (r : ℝ)) := by
  unfold linOffsets
  rw [if_pos (show i < LinearKernelWidth r by unfold LinearKernelWidth; omega),
    if_neg (by omega)]
  unfold linUpperOffset
  rw [if_neg (by omega), linPairIndex_eq r i h1 h2,
    show 2 * i - 1 + 1 = 2 * i by omega]

theorem linKernel_center_even (sigma : ℚ) (r : ℕ) (hp : r % 2 = 0) :
    linKernel sigma r (linHalfRadius r) = Compute1DBlurKernel sigma r r := by
  unfold linKernel
  rw [if_pos (linHalfRadius_lt r), if_neg (by omega)]
  unfold linUpperWeight
  rw [if_pos rfl, if_neg (by omega)]

theorem linOffsets_center_even (sigma : ℚ) (r : ℕ) (hp : r % 2 = 0) :
    linOffsets sigma r (linHalfRadius r) = 0 := by
  unfold linOffsets
  rw [if_pos (linHalfRadius_lt r), if_neg (by omega)]
  unfold linUpperOffset
  rw [if_pos rfl, if_neg (by omega)]

theorem linKernel_center_odd (sigma : ℚ) (r : ℕ) (hp : r % 2 = 1) :
    linKernel sigma r (linHalfRadius r)
      = Compute1DBlurKernel sigma r r * (1 / 2) + Compute1DBlurKernel sigma r (r + 1) := by
  unfold linKernel
  rw [if_pos (linHalfRadius_lt r), if_neg (by omega)]
  unfold linUpperWeight
  rw [if_pos rfl, if_pos hp]

theorem linOffsets_center_odd (sigma : ℚ) (r : ℕ) (hp : r % 2 = 1) :
    linOffsets sigma r (linHalfRadius r)
      = Compute1DBlurKernel sigma r (r + 1)
          / (Compute1DBlurKernel sigma r r * (1 / 2) + Compute1DBlurKernel sigma r (r + 1)) := by
  unfold linOffsets
  rw [if_pos (linHalfRadius_lt r), if_neg (by omega)]
  unfold linUpperOffset
  rw [if_pos rfl, if_pos hp]

theorem linKernel_lower_mid (sigma : ℚ) (r i : ℕ) (h : i < linHalfRadius r)
    (hm : 2 * i + 1 = r) :
    linKernel sigma r i
      = Compute1DBlurKernel sigma r r * (1 / 2) + Compute1DBlurKernel sigma r (r + 1) := by
  have hodd : r % 2 = 1 := by omega
  have hmir : r - i = linHalfRadius r := by
    unfold linHalfRadius LinearKernelWidth; unfold linHalfRadius LinearKernelWidth at h; omega
  unfold linKernel
  rw [if_pos (show i < LinearKernelWidth r by unfold LinearKernelWidth; omega), if_pos h, hmir]
  unfold linUpperWeight
  rw [if_pos rfl, if_pos hodd]

theorem linOffsets_lower_mid (sigma : ℚ) (r i : ℕ) (h : i < linHalfRadius r)
    (hm : 2 * i + 1 = r) :
    linOffsets sigma r i
      = -(Compute1DBlurKernel sigma r (r + 1)
          / (Compute1DBlurKernel sigma r r * (1 / 2) + Compute1DBlurKernel sigma r (r + 1))) := by
  have hodd : r % 2 = 1 := by omega
  have hmir : r - i = linHalfRadius r := by
    unfold linHalfRadius LinearKernelWidth; unfold linHalfRadius LinearKernelWidth at h; omega
  unfold linOffsets
  rw [if_pos (show i < LinearKernelWidth r by unfold LinearKernelWidth; omega), if_pos h, hmir]
  unfold linUpperOffset
  rw [if_pos rfl, if_pos hodd]

theorem lower_pair_mirror_gt (r i : ℕ) (h : i < linHalfRadius r) (hm : 2 * i + 1 ≠ r) :
    linHalfRadius r < r - i := by
  unfold linHalfRadius LinearKernelWidth at h ⊢; omega

theorem linKernel_lower_pair (sigma : ℚ) (r i : ℕ) (h : i < linHalfRadius r)
    (hm : 2 * i + 1 ≠ r) :
    linKernel sigma r i
      = Compute1DBlurKernel sigma r (2 * (r - i) - 1)
        + Compute1DBlurKernel sigma r (2 * (r - i)) := by
  have hgt := lower_pair_mirror_gt r i h hm
  unfold linKernel
  rw [if_pos (show i < LinearKernelWidth r by unfold LinearKernelWidth; omega), if_pos h]
  unfold linUpperWeight
  rw [if_neg (by omega), linPairIndex_eq r (r - i) hgt (by omega),
    show 2 * (r - i) - 1 + 1 = 2 * (r - i) by
      unfold linHalfRadius LinearKernelWidth at h; omega]

theorem linOffsets_lower_pair (sigma : ℚ) (r i : ℕ) (h : i < linHalfRadius r)
    (hm : 2 * i + 1 ≠ r) :
    linOffsets sigma r i
      = -(Compute1DBlurKernel sigma r (2 * (r - i))
            / (Compute1DBlurKernel sigma r (2 * (r - i) - 1)
                + Compute1DBlurKernel sigma r (2 * (r - i)))
          + (((2 * (r - i) - 1 : ℕ) : ℝ) - (r : ℝ))) := by
  have hgt := lower_pair_mirror_gt r i h hm
  unfold linOffsets
  rw [if_pos (show i < LinearKernelWidth r by unfold LinearKernelWidth; omega), if_pos h]
  unfold linUpperOffset
  rw [if_neg (by omega), linPairIndex_eq r (r - i) hgt (by omega),
    show 2 * (r - i) - 1 + 1 = 2 * (r - i) by
      unfold linHalfRadius LinearKernelWidth at h; omega]

theorem Compute1DBlurKernel_zero (sigma : ℚ) (r i : ℕ) (hi : KernelWidth r ≤ i) :
    Compute1DBlurKernel sigma r i = 0 := by
  unfold Compute1DBlurKernel
  exact Compute2DBlurKernel_zero sigma 0 r 0 i
    (by rw [show KernelWidth 0 = 1 from rfl, mul_one]; exact hi)

theorem linKernel_pos (sigma : ℚ) (r i : ℕ) (hi : i < LinearKernelWidth r) :
    0 < linKernel sigma r i := by
  have hir : i ≤ r := by unfold LinearKernelWidth at hi; omega
  have hwr : r < KernelWidth r := by unfold KernelWidth; omega
  rcases lt_trichotomy i (linHalfRadius r) with hlt | heq | hgt
  · by_cases hm : 2 * i + 1 = r
    · rw [linKernel_lower_mid sigma r i hlt hm]
      exact add_pos (mul_pos (Compute1DBlurKernel_pos sigma r r hwr) (by norm_num))
        (Compute1DBlurKernel_pos sigma r (r + 1) (by unfold KernelWidth; omega))
    · rw [linKernel_lower_pair sigma r i hlt hm]
      exact add_pos
        (Compute1DBlurKernel_pos sigma r _ (by unfold KernelWidth; omega))
        (Compute1DBlurKernel_pos sigma r _ (by unfold KernelWidth; omega))
  · rw [heq]
    rcases Nat.mod_two_eq_zero_or_one r with hp | hp
    · rw [linKernel_center_even sigma r hp]
      exact Compute1DBlurKernel_pos sigma r r hwr
    · rw [linKernel_center_odd sigma r hp]
      exact add_pos (mul_pos (Compute1DBlurKernel_pos sigma r r hwr) (by norm_num))
        (Compute1DBlurKernel_pos sigma r (r + 1) (by unfold KernelWidth; omega))
  · rw [linKernel_upper sigma r i hgt hir]
    exact add_pos
      (Compute1DBlurKernel_pos sigma r _ (by unfold KernelWidth; omega))
      (Compute1DBlurKernel_pos sigma r _ (by unfold KernelWidth; omega))

theorem linKernel_tail_zero (sigma : ℚ) (r i : ℕ) (hi : LinearKernelWidth r ≤ i) :
    linKernel sigma r i = 0 := by
  unfold linKernel
  rw [if_neg (by omega)]

/-- C7: for every valid (sigma, radius) the linear kernel has exactly
radius + 1 taps with nonzero (indeed strictly positive) weight, all
entries from index radius + 1 on having weight zero, versus the
2 radius + 1 strictly positive weights of the full 1-D kernel -- so twice
the linear tap count is exactly one more than the full width, the
roughly-2x sample reduction for radius at least 2. -/
theorem C7_linear_tap_count (sigma : ℚ) (r : ℕ) (hs : sigma ≤ kMaxLinearSigma)
    (hr : r = SigmaToRadius sigma) (hw : LinearKernelWidth r ≤ kMaxSamples) :
    (∀ i < LinearKernelWidth r, 0 < linKernel sigma r i) ∧
    (∀ i, LinearKernelWidth r ≤ i → linKernel sigma r i = 0) ∧
    (∀ i < KernelWidth r, 0 < Compute1DBlurKernel sigma r i) ∧
    (∀ i, KernelWidth r ≤ i → Compute1DBlurKernel sigma r i = 0) ∧
    LinearKernelWidth r = r + 1 ∧
    KernelWidth r = 2 * r + 1 ∧
    (2 ≤ r → 2 * LinearKernelWidth r = KernelWidth r + 1) :=
  ⟨fun i hi => linKernel_pos sigma r i hi,
   fun i hi => linKernel_tail_zero sigma r i hi,
   fun i hi => Compute1DBlurKernel_pos sigma r i hi,
   fun i hi => Compute1DBlurKernel_zero sigma r i hi,
   rfl, rfl,
   fun _ => by unfold LinearKernelWidth KernelWidth; omega⟩

/-- Witness for C7 at sigma = 1 (radius 3): the first tap has positive
weight and the tail entry at index 4 is zero. -/
theorem C7_linear_tap_count_witness :
    0 < linKernel 1 3 0 ∧ linKernel 1 3 4 = 0 :=
  ⟨(C7_linear_tap_count 1 3 (by norm_num [kMaxLinearSigma])
      (by norm_num [SigmaToRadius]; decide) (by decide)).1 0 (by decide),
   (C7_linear_tap_count 1 3 (by norm_num [kMaxLinearSigma])
      (by norm_num [SigmaToRadius]; decide) (by decide)).2.1 4 (by decide)⟩

/-- C5 counterexample: at the valid pair sigma = 2/3, radius = 2 the full
kernel's total width 5 is odd, yet the centre tap of the linear kernel is
sampled directly -- offset exactly 0 and the unhalved full centre weight --
whereas the halve-and-merge treatment the claim prescribes for odd total
width would give the centre tap the strictly positive offset
Wj / (Wi + Wj) shown. -/
theorem C5_center_tap_counterexample :
    (2 : ℕ) = SigmaToRadius (2 / 3) ∧
    KernelWidth 2 % 2 = 1 ∧
    linOffsets (2 / 3) 2 (linHalfRadius 2) = 0 ∧
    linKernel (2 / 3) 2 (linHalfRadius 2) = Compute1DBlurKernel (2 / 3) 2 2 ∧
    0 < Compute1DBlurKernel (2 / 3) 2 3
        / (Compute1DBlurKernel (2 / 3) 2 2 * (1 / 2) + Compute1DBlurKernel (2 / 3) 2 3) :=
  ⟨by norm_num [SigmaToRadius]; decide,
   by decide,
   linOffsets_center_even (2 / 3) 2 rfl,
   linKernel_center_even (2 / 3) 2 rfl,
   div_pos (Compute1DBlurKernel_pos (2 / 3) 2 3 (by decide))
     (add_pos (mul_pos (Compute1DBlurKernel_pos (2 / 3) 2 2 (by decide)) (by norm_num))
       (Compute1DBlurKernel_pos (2 / 3) 2 3 (by decide)))⟩

/-- C5 as amended: the parity branch is on the radius, not the total
width -- an odd radius halves the centre weight and merges it with its
upper neighbour, mirrored as a matched pair with negated offsets; an even
radius samples the centre texel directly with offset 0; and radius 0
yields the single tap with weight exactly 1 and offset 0. -/
theorem C5_center_tap_amended (sigma : ℚ) (r : ℕ) (hs : sigma ≤ kMaxLinearSigma)
    (hr : r = SigmaToRadius sigma) (hw : LinearKernelWidth r ≤ kMaxSamples) :
    (r % 2 = 1 →
      linKernel sigma r (linHalfRadius r)
          = Compute1DBlurKernel sigma r r * (1 / 2) + Compute1DBlurKernel sigma r (r + 1) ∧
      linOffsets sigma r (linHalfRadius r)
          = Compute1DBlurKernel sigma r (r + 1)
              / (Compute1DBlurKernel sigma r r * (1 / 2)
                  + Compute1DBlurKernel sigma r (r + 1)) ∧
      linKernel sigma r (linHalfRadius r - 1) = linKernel sigma r (linHalfRadius r) ∧
      linOffsets sigma r (linHalfRadius r - 1) = -(linOffsets sigma r (linHalfRadius r))) ∧
    (r % 2 = 0 →
      linKernel sigma r (linHalfRadius r) = Compute1DBlurKernel sigma r r ∧
      linOffsets sigma r (linHalfRadius r) = 0) ∧
    (r = 0 → linKernel sigma r 0 = 1 ∧ linOffsets sigma r 0 = 0) := by
  refine ⟨?_, ?_, ?_⟩
  · intro hp
    have hr1 : 1 ≤ linHalfRadius r := by unfold linHalfRadius LinearKernelWidth; omega
    have hm : 2 * (linHalfRadius r - 1) + 1 = r := by
      unfold linHalfRadius LinearKernelWidth; omega
    refine ⟨linKernel_center_odd sigma r hp, linOffsets_center_odd sigma r hp, ?_, ?_⟩
    · rw [linKernel_lower_mid sigma r _ (by omega) hm, linKernel_center_odd sigma r hp]
    · rw [linOffsets_lower_mid sigma r _ (by omega) hm, linOffsets_center_odd sigma r hp]
  · intro hp
    exact ⟨linKernel_center_even sigma r hp, linOffsets_center_even sigma r hp⟩
  · intro h0
    subst h0
    have h00 : linHalfRadius 0 = 0 := rfl
    have hk := linKernel_center_even sigma 0 rfl
    have ho := linOffsets_center_even sigma 0 rfl
    rw [h00] at hk ho
    refine ⟨?_, ho⟩
    rw [hk]
    unfold Compute1DBlurKernel
    exact Compute2DBlurKernel_degenerate sigma 0

/-- Witness for C5's amended claim at sigma = 2/3, radius = 2 (even
radius: direct centre sample at offset 0). -/
theorem C5_center_tap_amended_witness :
    linKernel (2 / 3) 2 (linHalfRadius 2) = Compute1DBlurKernel (2 / 3) 2 2 ∧
    linOffsets (2 / 3) 2 (linHalfRadius 2) = 0 :=
  (C5_center_tap_amended (2 / 3) 2 (by norm_num [kMaxLinearSigma])
      (by norm_num [SigmaToRadius]; decide) (by decide)).2.1 rfl

theorem floor_natCast_add (n : ℕ) (x : ℝ) (h0 : 0 ≤ x) (h1 : x < 1) :
    ⌊(n : ℝ) + x⌋ = (n : ℤ) := by
  rw [add_comm, Int.floor_add_nat, Int.floor_eq_zero_iff.mpr (Set.mem_Ico.mpr ⟨h0, h1⟩),
    zero_add]

theorem fract_natCast_add (n : ℕ) (x : ℝ) (h0 : 0 ≤ x) (h1 : x < 1) :
    Int.fract ((n : ℝ) + x) = x := by
  rw [add_comm, Int.fract_add_nat, Int.fract_eq_self.mpr ⟨h0, h1⟩]

theorem floor_fract_natCast_sub (n : ℕ) (hn : 1 ≤ n) (x : ℝ) (h0 : 0 < x) (h1 : x < 1) :
    ⌊(n : ℝ) - x⌋ = (n : ℤ) - 1 ∧ Int.fract ((n : ℝ) - x) = 1 - x := by
  have he : (n : ℝ) - x = ((n - 1 : ℕ) : ℝ) + (1 - x) := by
    rw [Nat.cast_sub hn]
    push_cast
    ring
  constructor
  · rw [he, floor_natCast_add (n - 1) _ (by linarith) (by linarith)]
    omega
  · rw [he, fract_natCast_add (n - 1) _ (by linarith) (by linarith)]

theorem merge_inverse (a b : ℝ) (ha : 0 < a) (hb : 0 < b) :
    (a + b) * (1 - b / (a + b)) = a ∧ (a + b) * (b / (a + b)) = b ∧
    0 < b / (a + b) ∧ b / (a + b) < 1 := by
  have hab : (0 : ℝ) < a + b := by linarith
  have hne : a + b ≠ 0 := ne_of_gt hab
  refine ⟨?_, ?_, div_pos hb hab, (div_lt_one hab).mpr (by linarith)⟩
  · field_simp
  · field_simp

theorem linTapExpand_upper (sigma : ℚ) (r i t : ℕ)
    (h1 : linHalfRadius r < i) (h2 : i ≤ r) :
    linTapExpand sigma r i t
      = (if ((2 * i - 1 : ℕ) : ℤ) = (t : ℤ)
            then Compute1DBlurKernel sigma r (2 * i - 1) else 0)
        + (if ((2 * i : ℕ) : ℤ) = (t : ℤ)
            then Compute1DBlurKernel sigma r (2 * i) else 0) := by
  have hia : 2 * i - 1 < KernelWidth r := by unfold KernelWidth; omega
  have hib : 2 * i < KernelWidth r := by unfold KernelWidth; omega
  have ha := Compute1DBlurKernel_pos sigma r (2 * i - 1) hia
  have hb := Compute1DBlurKernel_pos sigma r (2 * i) hib
  obtain ⟨hA, hB, hf0, hf1⟩ := merge_inverse _ _ ha hb
  unfold linTapExpand
  rw [linKernel_upper sigma r i h1 h2, linOffsets_upper sigma r i h1 h2]
  have hpos : (r : ℝ)
      + (Compute1DBlurKernel sigma r (2 * i)
          / (Compute1DBlurKernel sigma r (2 * i - 1) + Compute1DBlurKernel sigma r (2 * i))
        + (((2 * i - 1 : ℕ) : ℝ) - (r : ℝ)))
      = ((2 * i - 1 : ℕ) : ℝ)
        + Compute1DBlurKernel sigma r (2 * i)
          / (Compute1DBlurKernel sigma r (2 * i - 1) + Compute1DBlurKernel sigma r (2 * i)) := by
    ring
  rw [hpos, floor_natCast_add _ _ (le_of_lt hf0) hf1, fract_natCast_add _ _ (le_of_lt hf0) hf1]
  rw [mul_add, ← mul_assoc, ← mul_assoc, hA, hB]
  rw [mul_ite, mul_one, mul_zero, mul_ite, mul_one, mul_zero]
  congr 1
  exact if_congr (by push_cast [Nat.cast_sub (show 1 ≤ 2 * i by omega)]; omega) rfl rfl

theorem linTapExpand_center_even (sigma : ℚ) (r t : ℕ) (hp : r % 2 = 0) :
    linTapExpand sigma r (linHalfRadius r) t
      = if (r : ℤ) = (t : ℤ) then Compute1DBlurKernel sigma r r else 0 := by
  unfold linTapExpand
  rw [linKernel_center_even sigma r hp, linOffsets_center_even sigma r hp, add_zero,
    Int.floor_natCast, Int.fract_natCast]
  rw [mul_add, mul_ite, mul_one, mul_zero]
  simp

theorem linTapExpand_center_odd (sigma : ℚ) (r t : ℕ) (hp : r % 2 = 1) :
    linTapExpand sigma r (linHalfRadius r) t
      = (if (r : ℤ) = (t : ℤ) then Compute1DBlurKernel sigma r r * (1 / 2) else 0)
        + (if (r : ℤ) + 1 = (t : ℤ) then Compute1DBlurKernel sigma r (r + 1) else 0) := by
  have hwr : r < KernelWidth r := by unfold KernelWidth; omega
  have ha : 0 < Compute1DBlurKernel sigma r r * (1 / 2) :=
    mul_pos (Compute1DBlurKernel_pos sigma r r hwr) (by norm_num)
  have hb := Compute1DBlurKernel_pos sigma r (r + 1) (by unfold KernelWidth; omega)
  obtain ⟨hA, hB, hf0, hf1⟩ := merge_inverse _ _ ha hb
  unfold linTapExpand
  rw [linKernel_center_odd sigma r hp, linOffsets_center_odd sigma r hp]
  rw [floor_natCast_add _ _ (le_of_lt hf0) hf1, fract_natCast_add _ _ (le_of_lt hf0) hf1]
  rw [mul_add, ← mul_assoc, ← mul_assoc, hA, hB]
  rw [mul_ite, mul_one, mul_zero, mul_ite, mul_one, mul_zero]

theorem linTapExpand_lower_mid (sigma : ℚ) (r i t : ℕ)
    (h : i < linHalfRadius r) (hm : 2 * i + 1 = r) :
    linTapExpand sigma r i t
      = (if ((2 * i : ℕ) : ℤ) = (t : ℤ) then Compute1DBlurKernel sigma r (2 * i) else 0)
        + (if ((2 * i : ℕ) : ℤ) + 1 = (t : ℤ)
            then Compute1DBlurKernel sigma r r * (1 / 2) else 0) := by
  have hr1 : 1 ≤ r := by omega
  have hwr : r < KernelWidth r := by unfold KernelWidth; omega
  have ha : 0 < Compute1DBlurKernel sigma r r * (1 / 2) :=
    mul_pos (Compute1DBlurKernel_pos sigma r r hwr) (by norm_num)
  have hb := Compute1DBlurKernel_pos sigma r (r + 1) (by unfold KernelWidth; omega)
  obtain ⟨hA, hB, hf0, hf1⟩ := merge_inverse _ _ ha hb
  have hsym : Compute1DBlurKernel sigma r (r - 1) = Compute1DBlurKernel sigma r (r + 1) := by
    have hsy := Compute1DBlurKernel_symm sigma r (r + 1) (by omega)
    rw [show 2 * r - (r + 1) = r - 1 by omega] at hsy
    exact hsy
  unfold linTapExpand
  rw [linKernel_lower_mid sigma r i h hm, linOffsets_lower_mid sigma r i h hm]
  have hpos : (r : ℝ)
      + -(Compute1DBlurKernel sigma r (r + 1)
          / (Compute1DBlurKernel sigma r r * (1 / 2) + Compute1DBlurKernel sigma r (r + 1)))
      = (r : ℝ)
        - Compute1DBlurKernel sigma r (r + 1)
          / (Compute1DBlurKernel sigma r r * (1 / 2) + Compute1DBlurKernel sigma r (r + 1)) := by
    ring
  rw [hpos]
  obtain ⟨hfl, hfr⟩ := floor_fract_natCast_sub r hr1 _ hf0 hf1
  rw [hfl, hfr]
  have h1f : (1 : ℝ)
      - (1 - Compute1DBlurKernel sigma r (r + 1)
          / (Compute1DBlurKernel sigma r r * (1 / 2) + Compute1DBlurKernel sigma r (r + 1)))
      = Compute1DBlurKernel sigma r (r + 1)
          / (Compute1DBlurKernel sigma r r * (1 / 2) + Compute1DBlurKernel sigma r (r + 1)) := by
    ring
  rw [h1f, mul_add, ← mul_assoc, ← mul_assoc, hB, hA]
  rw [mul_ite, mul_one, mul_zero, mul_ite, mul_one, mul_zero]
  rw [show (2 * i : ℕ) = r - 1 by omega, ← hsym]
  congr 1
  · exact if_congr (by push_cast [Nat.cast_sub hr1]; omega) rfl rfl
  · exact if_congr (by push_cast [Nat.cast_sub hr1]; omega) rfl rfl

theorem linTapExpand_lower_pair (sigma : ℚ) (r i t : ℕ)
    (h : i < linHalfRadius r) (hm : 2 * i + 1 ≠ r) :
    linTapExpand sigma r i t
      = (if ((2 * i : ℕ) : ℤ) = (t : ℤ) then Compute1DBlurKernel sigma r (2 * i) else 0)
        + (if ((2 * i : ℕ) : ℤ) + 1 = (t : ℤ)
            then Compute1DBlurKernel sigma r (2 * i + 1) else 0) := by
  have hhr : linHalfRadius r = (r + 1) / 2 := rfl
  have hgt := lower_pair_mirror_gt r i h hm
  have hhg : (r + 1) / 2 < r - i := by rw [← hhr]; exact hgt
  have hir : i ≤ r := by omega
  have hj1 : 1 ≤ 2 * (r - i) := by omega
  have ha := Compute1DBlurKernel_pos sigma r (2 * (r - i) - 1) (by unfold KernelWidth; omega)
  have hb := Compute1DBlurKernel_pos sigma r (2 * (r - i)) (by unfold KernelWidth; omega)
  obtain ⟨hA, hB, hf0, hf1⟩ := merge_inverse _ _ ha hb
  have hsyma : Compute1DBlurKernel sigma r (2 * (r - i) - 1)
      = Compute1DBlurKernel sigma r (2 * i + 1) := by
    have hsy := Compute1DBlurKernel_symm sigma r (2 * i + 1) (by omega)
    rw [show 2 * r - (2 * i + 1) = 2 * (r - i) - 1 by omega] at hsy
    exact hsy
  have hsymb : Compute1DBlurKernel sigma r (2 * (r - i))
      = Compute1DBlurKernel sigma r (2 * i) := by
    have hsy := Compute1DBlurKernel_symm sigma r (2 * i) (by omega)
    rw [show 2 * r - 2 * i = 2 * (r - i) by omega] at hsy
    exact hsy
  unfold linTapExpand
  rw [linKernel_lower_pair sigma r i h hm, linOffsets_lower_pair sigma r i h hm]
  have hpos : (r : ℝ)
      + -(Compute1DBlurKernel sigma r (2 * (r - i))
            / (Compute1DBlurKernel sigma r (2 * (r - i) - 1)
                + Compute1DBlurKernel sigma r (2 * (r - i)))
          + (((2 * (r - i) - 1 : ℕ) : ℝ) - (r : ℝ)))
      = ((2 * i + 1 : ℕ) : ℝ)
        - Compute1DBlurKernel sigma r (2 * (r - i))
            / (Compute1DBlurKernel sigma r (2 * (r - i) - 1)
                + Compute1DBlurKernel sigma r (2 * (r - i))) := by
    push_cast [Nat.cast_sub hj1, Nat.cast_sub hir]
    ring
  rw [hpos]
  obtain ⟨hfl, hfr⟩ := floor_fract_natCast_sub (2 * i + 1) (by omega) _ hf0 hf1
  rw [hfl, hfr]
  have h1f : (1 : ℝ)
      - (1 - Compute1DBlurKernel sigma r (2 * (r - i))
            / (Compute1DBlurKernel sigma r (2 * (r - i) - 1)
                + Compute1DBlurKernel sigma r (2 * (r - i))))
      = Compute1DBlurKernel sigma r (2 * (r - i))
            / (Compute1DBlurKernel sigma r (2 * (r - i) - 1)
                + Compute1DBlurKernel sigma r (2 * (r - i))) := by
    ring
  rw [h1f, mul_add, ← mul_assoc, ← mul_assoc, hB, hA]
  rw [mul_ite, mul_one, mul_zero, mul_ite, mul_one, mul_zero]
  rw [hsyma, hsymb]
  congr 1
  · exact if_congr (by push_cast; omega) rfl rfl
  · exact if_congr (by push_cast; omega) rfl rfl

theorem linTapExpand_eq_zero (sigma : ℚ) (r t j : ℕ) (hj : j ≤ r)
    (h1 : j < linHalfRadius r → 2 * j ≠ t ∧ 2 * j + 1 ≠ t)
    (h2 : j = linHalfRadius r → r % 2 = 0 → r ≠ t)
    (h3 : j = linHalfRadius r → r % 2 = 1 → r ≠ t ∧ r + 1 ≠ t)
    (h4 : linHalfRadius r < j → 2 * j - 1 ≠ t ∧ 2 * j ≠ t) :
    linTapExpand sigma r j t = 0 := by
  rcases lt_trichotomy j (linHalfRadius r) with hlt | heq | hgt
  · obtain ⟨hz1, hz2⟩ := h1 hlt
    by_cases hm : 2 * j + 1 = r
    · rw [linTapExpand_lower_mid sigma r j t hlt hm,
        if_neg (fun hc => hz1 (by exact_mod_cast hc)),
        if_neg (fun hc => hz2 (by exact_mod_cast hc))]
      norm_num
    · rw [linTapExpand_lower_pair sigma r j t hlt hm,
        if_neg (fun hc => hz1 (by exact_mod_cast hc)),
        if_neg (fun hc => hz2 (by exact_mod_cast hc))]
      norm_num
  · rcases Nat.mod_two_eq_zero_or_one r with hp | hp
    · rw [heq, linTapExpand_center_even sigma r t hp,
        if_neg (fun hc => (h2 heq hp) (by exact_mod_cast hc))]
    · obtain ⟨hz1, hz2⟩ := h3 heq hp
      rw [heq, linTapExpand_center_odd sigma r t hp,
        if_neg (fun hc => hz1 (by exact_mod_cast hc)),
        if_neg (fun hc => hz2 (by exact_mod_cast hc))]
      norm_num
  · obtain ⟨hz1, hz2⟩ := h4 hgt
    rw [linTapExpand_upper sigma r j t hgt hj,
      if_neg (fun hc => hz1 (by exact_mod_cast hc)),
      if_neg (fun hc => hz2 (by exact_mod_cast hc))]
    norm_num

theorem reconKernel_eq (sigma : ℚ) (r t : ℕ) (ht : t < KernelWidth r) :
    reconKernel sigma r t = Compute1DBlurKernel sigma r t := by
  have ht2 : t ≤ 2 * r := by unfold KernelWidth at ht; omega
  have hhr : linHalfRadius r = (r + 1) / 2 := rfl
  unfold reconKernel
  rw [show LinearKernelWidth r = r + 1 from rfl]
  rcases Nat.mod_two_eq_zero_or_one t with hpt | hpt
  · -- t even: the single contributing tap is t / 2
    have hside : ∀ j ∈ Finset.range (r + 1), j ≠ t / 2 → linTapExpand sigma r j t = 0 := by
      intro j hjm hjne
      rw [Finset.mem_range] at hjm
      refine linTapExpand_eq_zero sigma r t j (by omega) ?_ ?_ ?_ ?_
      · intro _; constructor <;> omega
      · intro hje _; omega
      · intro hje _; constructor <;> omega
      · intro hgt; constructor <;> omega
    rw [Finset.sum_eq_single_of_mem (t / 2) (Finset.mem_range.mpr (by omega)) hside]
    rcases lt_trichotomy (t / 2) (linHalfRadius r) with hlt | heq | hgt
    · by_cases hmm : 2 * (t / 2) + 1 = r
      · rw [linTapExpand_lower_mid sigma r (t / 2) t hlt hmm,
          if_pos (by omega), if_neg (by omega), add_zero]
        congr 1
        omega
      · rw [linTapExpand_lower_pair sigma r (t / 2) t hlt hmm,
          if_pos (by omega), if_neg (by omega), add_zero]
        congr 1
        omega
    · rcases Nat.mod_two_eq_zero_or_one r with hp | hp
      · rw [heq, linTapExpand_center_even sigma r t hp, if_pos (by omega)]
        congr 1
        omega
      · rw [heq, linTapExpand_center_odd sigma r t hp,
          if_neg (by omega), if_pos (by omega), zero_add]
        congr 1
        omega
    · rw [linTapExpand_upper sigma r (t / 2) t hgt (by omega),
        if_neg (by omega), if_pos (by omega), zero_add]
      congr 1
      omega
  · -- t odd
    by_cases htr : t = r
    · -- centre texel of an odd radius: two half-weight contributors
      have hp : r % 2 = 1 := by omega
      have hr1 : 1 ≤ linHalfRadius r := by omega
      have hmem1 : linHalfRadius r ∈ Finset.range (r + 1) := Finset.mem_range.mpr (by omega)
      have hmem2 : linHalfRadius r - 1 ∈ (Finset.range (r + 1)).erase (linHalfRadius r) :=
        Finset.mem_erase.mpr ⟨by omega, Finset.mem_range.mpr (by omega)⟩
      rw [← Finset.add_sum_erase _ _ hmem1, ← Finset.add_sum_erase _ _ hmem2]
      have hrest : ∑ j ∈ ((Finset.range (r + 1)).erase
          (linHalfRadius r)).erase (linHalfRadius r - 1), linTapExpand sigma r j t = 0 := by
        apply Finset.sum_eq_zero
        intro j hj
        rw [Finset.mem_erase, Finset.mem_erase, Finset.mem_range] at hj
        obtain ⟨hne1, hne2, hjm⟩ := hj
        refine linTapExpand_eq_zero sigma r t j (by omega) ?_ ?_ ?_ ?_
        · intro hlt; constructor <;> omega
        · intro _ hp2; omega
        · intro hje _; exact absurd hje hne2
        · intro hgt; constructor <;> omega
      rw [hrest, add_zero]
      rw [linTapExpand_center_odd sigma r t hp,
        linTapExpand_lower_mid sigma r (linHalfRadius r - 1) t (by omega) (by omega),
        if_pos (by omega), if_neg (by omega), if_neg (by omega), if_pos (by omega)]
      rw [htr]
      ring
    · -- off-centre odd texel: single contributor
      by_cases hcase : t / 2 < linHalfRadius r
      · -- lower-half tap t / 2 covers texel 2 (t/2) + 1 = t
        have hside : ∀ j ∈ Finset.range (r + 1), j ≠ t / 2 →
            linTapExpand sigma r j t = 0 := by
          intro j hjm hjne
          rw [Finset.mem_range] at hjm
          refine linTapExpand_eq_zero sigma r t j (by omega) ?_ ?_ ?_ ?_
          · intro hlt; constructor <;> omega
          · intro hje _; omega
          · intro hje _; constructor <;> omega
          · intro hgt; constructor <;> omega
        rw [Finset.sum_eq_single_of_mem (t / 2) (Finset.mem_range.mpr (by omega)) hside]
        by_cases hmm : 2 * (t / 2) + 1 = r
        · exact absurd (by omega) htr
        · rw [linTapExpand_lower_pair sigma r (t / 2) t hcase hmm,
            if_neg (by omega), if_pos (by omega), zero_add]
          congr 1
          omega
      · -- upper-half tap t / 2 + 1 covers texel 2 (t/2 + 1) - 1 = t
        have hub : t / 2 + 1 ≤ r := by omega
        have hgt2 : linHalfRadius r < t / 2 + 1 := by omega
        have hside : ∀ j ∈ Finset.range (r + 1), j ≠ t / 2 + 1 →
            linTapExpand sigma r j t = 0 := by
          intro j hjm hjne
          rw [Finset.mem_range] at hjm
          refine linTapExpand_eq_zero sigma r t j (by omega) ?_ ?_ ?_ ?_
          · intro hlt; constructor <;> omega
          · intro hje _; omega
          · intro hje _; constructor <;> omega
          · intro hgt; constructor <;> omega
        rw [Finset.sum_eq_single_of_mem (t / 2 + 1) (Finset.mem_range.mpr (by omega)) hside]
        rw [linTapExpand_upper sigma r (t / 2 + 1) t hgt2 hub,
          if_pos (by omega), if_neg (by omega), add_zero]
        congr 1
        omega

/-- C2: the round-trip law for the linear-sampling optimization -- for
every valid (sigma, radius), expanding each tap of
`Compute1DBlurLinearKernel` back into its two contributing full-kernel
neighbours via the inverse of the merge formula (a bilinear fetch at the
tap's offset splits weight W into W (1 - x) and W x around the integer
sample position) reproduces the full 1-D kernel of `Compute1DBlurKernel`
exactly in the real-arithmetic model. -/
theorem C2_linear_roundtrip (sigma : ℚ) (r : ℕ) (hs : sigma ≤ kMaxLinearSigma)
    (hr : r = SigmaToRadius sigma) (hw : LinearKernelWidth r ≤ kMaxSamples) :
    ∀ t < KernelWidth r, reconKernel sigma r t = Compute1DBlurKernel sigma r t :=
  fun t ht => reconKernel_eq sigma r t ht

/-- Witness for C2 at sigma = 1 (radius 3), texel 0. -/
theorem C2_linear_roundtrip_witness :
    reconKernel 1 3 0 = Compute1DBlurKernel 1 3 0 :=
  C2_linear_roundtrip 1 3 (by norm_num [kMaxLinearSigma])
    (by norm_num [SigmaToRadius]; decide) (by decide) 0 (by decide)

end SkBlur
